import Mathlib

/-!
Verification of the HAB-forecasting preprocessing pipelines.

Shallow embedding of the two Python scripts
`ilw_daily_5_great_lakes_preprocess.py` and
`daymet_daily_5_great_lakes_preprocess.py`.

Modelling conventions:
* floating point cell values are modelled by `Option ℚ`: `none` stands for
  NaN / a masked (missing) value, `some x` for the finite value `x`;
* `xarray.DataArray.where(cond)` becomes `pyWhere`, which keeps a present
  value exactly when the condition holds and otherwise replaces it with
  `none` (NaN compares false against everything, so a `none` stays `none`);
* a 2-D raster slice is flattened to a `List (Option ℚ)`, the coordinate
  grid to a parallel `List (ℚ × ℚ)` of (lat, lon) pairs;
* timestamps are rational numbers; the external parsers
  `pandas.to_datetime` (fallible) and the fixed-format `%Y%m%d` parse are
  abstracted as function parameters `toDT : String → Option ℚ` and
  `pYMD : List Char → ℚ`;
* opening a file with a given engine either yields a dataset or raises:
  modelled as `Option NCDataset`; raising Python exceptions is modelled by
  `Except String` results.
-/

namespace HAB

/-- `da.where(cond)` applied to one cell: keep the value when present and
the condition holds, otherwise NaN (`none`).  A NaN cell stays NaN because
every comparison against NaN is false. -/
def pyWhere (v : Option ℚ) (keep : ℚ → Bool) : Option ℚ :=
  v.bind (fun x => if keep x then some x else none)

/-- `thr = max(vmin, 5e-5) if np.isfinite(vmin) else 5e-5`
(`clean_ci`, line 68).  `none` models an absent or non-finite
`valid_min` attribute. -/
def threshold (vmin : Option ℚ) : ℚ :=
  match vmin with
  | some m => max m (1/20000)
  | none => 1/20000

/-- `clean_ci` (lines 56-71) applied to one cell of the raster slice:
range test against the `valid_min` / `valid_max` attributes (each applied
only when the attribute is present and finite) followed by the near-zero
threshold cut `da.where(da > thr)`. -/
def clean_ci (vmin vmax : Option ℚ) (v : Option ℚ) : Option ℚ :=
  let v1 := match vmin with
    | some m => pyWhere v (fun x => m ≤ x)
    | none => v
  let v2 := match vmax with
    | some M => pyWhere v1 (fun x => x ≤ M)
    | none => v1
  pyWhere v2 (fun x => threshold vmin < x)

/-- C1.  A finite cell value `x` is turned into a missing value by
`clean_ci` exactly when `x < valid_min` (finite `valid_min` present), or
`x > valid_max` (finite `valid_max` present), or `x ≤ threshold`; every
other value passes through unchanged. -/
theorem clean_ci_masking_law (vmin vmax : Option ℚ) (x : ℚ) :
    (clean_ci vmin vmax (some x) = none ↔
      (∃ m, vmin = some m ∧ x < m) ∨ (∃ M, vmax = some M ∧ M < x) ∨
        x ≤ threshold vmin) ∧
    (clean_ci vmin vmax (some x) ≠ none →
      clean_ci vmin vmax (some x) = some x) := by
  have hcases : clean_ci vmin vmax (some x) = some x ∨
      clean_ci vmin vmax (some x) = none := by
    rcases vmin with _ | m <;> rcases vmax with _ | M
    · by_cases h3 : (1/20000 : ℚ) < x <;>
        simp [clean_ci, pyWhere, threshold, h3] <;>
        exact lt_or_le _ _
    · by_cases h2 : x ≤ M <;> by_cases h3 : (1/20000 : ℚ) < x <;>
        simp [clean_ci, pyWhere, threshold, h2, h3] <;>
        exact lt_or_le _ _
    · by_cases h1 : m ≤ x <;> by_cases h3 : max m (1/20000 : ℚ) < x <;>
        simp [clean_ci, pyWhere, threshold, h1, h3] <;>
        (first | exact lt_or_le _ _ | (intro hpm; exact lt_or_le _ _))
    · by_cases h1 : m ≤ x <;> by_cases h2 : x ≤ M <;>
        by_cases h3 : max m (1/20000 : ℚ) < x <;>
        simp [clean_ci, pyWhere, threshold, h1, h2, h3] <;>
        (first | exact lt_or_le _ _ | (intro hpm; exact lt_or_le _ _))
  have hkeep : clean_ci vmin vmax (some x) = some x ↔
      (∀ m, vmin = some m → m ≤ x) ∧ (∀ M, vmax = some M → x ≤ M) ∧
        threshold vmin < x := by
    rcases vmin with _ | m <;> rcases vmax with _ | M
    · by_cases h3 : (1/20000 : ℚ) < x <;>
        simp [clean_ci, pyWhere, threshold, h3]
    · by_cases h2 : x ≤ M <;> by_cases h3 : (1/20000 : ℚ) < x <;>
        simp [clean_ci, pyWhere, threshold, h2, h3]
    · by_cases h1 : m ≤ x <;> by_cases h3 : max m (1/20000 : ℚ) < x <;>
        simp [clean_ci, pyWhere, threshold, h1, h3]
    · by_cases h1 : m ≤ x <;> by_cases h2 : x ≤ M <;>
        by_cases h3 : max m (1/20000 : ℚ) < x <;>
        simp [clean_ci, pyWhere, threshold, h1, h2, h3]
  have hne : clean_ci vmin vmax (some x) = none ↔
      ¬ clean_ci vmin vmax (some x) = some x := by
    rcases hcases with h | h <;> simp [h]
  constructor
  · rw [hne, hkeep]
    constructor
    · intro h
      by_contra hc
      push_neg at hc
      exact h hc
    · rintro (⟨m, hm, hlt⟩ | ⟨M, hM, hgt⟩ | hle) hk
      · have := hk.1 m hm; linarith
      · have := hk.2.1 M hM; linarith
      · have := hk.2.2; linarith
  · intro h
    rcases hcases with h2 | h2
    · exact h2
    · exact absurd h2 h

/-- Witness for C1: instantiation of the masking law at a concrete
attribute pair and value. -/
theorem clean_ci_masking_law_witness :
    (clean_ci none none (some 1) = none ↔
      (∃ m, (none : Option ℚ) = some m ∧ (1 : ℚ) < m) ∨
      (∃ M, (none : Option ℚ) = some M ∧ M < (1 : ℚ)) ∨
        (1 : ℚ) ≤ threshold none) ∧
    (clean_ci none none (some 1) ≠ none →
      clean_ci none none (some 1) = some 1) :=
  clean_ci_masking_law none none 1

/-! ### Lake polygons, bounds and the bounding-box selector

A lake geometry is a simple polygon given by its ring of vertices
(`v0 :: rest`, implicitly closed back to `v0`).  `geom.bounds` of shapely
is the componentwise min/max over the vertices; point-in-polygon
containment (`shapely.vectorized.contains`, used by the Daymet mask
builder) is the standard even-odd ray-crossing test with a ray shot in
the +x (east) direction. -/

/-- A point in geographic coordinates; `x` is the longitude, `y` the
latitude. -/
structure Pt where
  x : ℚ
  y : ℚ

/-- A polygon ring: first vertex plus the remaining vertices, closed
implicitly. -/
structure Polygon where
  v0 : Pt
  rest : List Pt

def Polygon.verts (P : Polygon) : List Pt := P.v0 :: P.rest

/-- Consecutive edges of the chain `l` closed back to `w`. -/
def edgePairs : List Pt → Pt → List (Pt × Pt)
  | [], _ => []
  | [a], w => [(a, w)]
  | a :: b :: l, w => (a, b) :: edgePairs (b :: l) w

def Polygon.edges (P : Polygon) : List (Pt × Pt) := edgePairs P.verts P.v0

/-- Does the edge straddle the horizontal line through `py`
(`(a.y > py) != (b.y > py)` in the classical crossing test)? -/
def straddles (py : ℚ) (e : Pt × Pt) : Bool :=
  decide (py < e.1.y) != decide (py < e.2.y)

/-- x-coordinate where the edge meets the horizontal line through `p`. -/
def xInt (p : Pt) (e : Pt × Pt) : ℚ :=
  e.1.x + (p.y - e.1.y) * (e.2.x - e.1.x) / (e.2.y - e.1.y)

/-- Does the eastward ray from `p` cross the edge? -/
def crossesRay (p : Pt) (e : Pt × Pt) : Bool :=
  straddles p.y e && decide (p.x < xInt p e)

def crossNum (P : Polygon) (p : Pt) : ℕ := P.edges.countP (crossesRay p)

/-- Even-odd point-in-polygon test (`shapely` containment). -/
def containsPt (P : Polygon) (p : Pt) : Bool := crossNum P p % 2 == 1

/-- `geom.bounds` component: minimal longitude over the vertices. -/
def Polygon.minx (P : Polygon) : ℚ := (P.rest.map Pt.x).foldr min P.v0.x

def Polygon.maxx (P : Polygon) : ℚ := (P.rest.map Pt.x).foldr max P.v0.x

def Polygon.miny (P : Polygon) : ℚ := (P.rest.map Pt.y).foldr min P.v0.y

def Polygon.maxy (P : Polygon) : ℚ := (P.rest.map Pt.y).foldr max P.v0.y

/-- The bounding-box selector of `_extract_lakes_core_from_ds`
(lines 111-117): `(lon >= minx) & (lon <= maxx) & (lat >= miny) &
(lat <= maxy)` for one grid cell. -/
def inBBox (P : Polygon) (lonv latv : ℚ) : Bool :=
  decide (P.minx ≤ lonv) && decide (lonv ≤ P.maxx) &&
    decide (P.miny ≤ latv) && decide (latv ≤ P.maxy)

theorem foldr_min_le_init (a : ℚ) (l : List ℚ) : l.foldr min a ≤ a := by
  induction l with
  | nil => simp
  | cons x xs ih => exact le_trans (min_le_right _ _) ih

theorem foldr_min_le_mem (a b : ℚ) (l : List ℚ) (hb : b ∈ l) :
    l.foldr min a ≤ b := by
  induction l with
  | nil => cases hb
  | cons x xs ih =>
    rcases List.mem_cons.mp hb with h | h
    · subst h; exact min_le_left _ _
    · exact le_trans (min_le_right _ _) (ih h)

theorem le_foldr_max_init (a : ℚ) (l : List ℚ) : a ≤ l.foldr max a := by
  induction l with
  | nil => simp
  | cons x xs ih => exact le_trans ih (le_max_right _ _)

theorem le_foldr_max_mem (a b : ℚ) (l : List ℚ) (hb : b ∈ l) :
    b ≤ l.foldr max a := by
  induction l with
  | nil => cases hb
  | cons x xs ih =>
    rcases List.mem_cons.mp hb with h | h
    · subst h; exact le_max_left _ _
    · exact le_trans (ih h) (le_max_right _ _)

theorem minx_le_vert (P : Polygon) (v : Pt) (hv : v ∈ P.verts) :
    P.minx ≤ v.x := by
  rcases List.mem_cons.mp hv with h | h
  · subst h; exact foldr_min_le_init _ _
  · exact foldr_min_le_mem _ _ _ (List.mem_map_of_mem Pt.x h)

theorem vert_le_maxx (P : Polygon) (v : Pt) (hv : v ∈ P.verts) :
    v.x ≤ P.maxx := by
  rcases List.mem_cons.mp hv with h | h
  · subst h; exact le_foldr_max_init _ _
  · exact le_foldr_max_mem _ _ _ (List.mem_map_of_mem Pt.x h)

theorem miny_le_vert (P : Polygon) (v : Pt) (hv : v ∈ P.verts) :
    P.miny ≤ v.y := by
  rcases List.mem_cons.mp hv with h | h
  · subst h; exact foldr_min_le_init _ _
  · exact foldr_min_le_mem _ _ _ (List.mem_map_of_mem Pt.y h)

theorem vert_le_maxy (P : Polygon) (v : Pt) (hv : v ∈ P.verts) :
    v.y ≤ P.maxy := by
  rcases List.mem_cons.mp hv with h | h
  · subst h; exact le_foldr_max_init _ _
  · exact le_foldr_max_mem _ _ _ (List.mem_map_of_mem Pt.y h)

theorem edgePairs_mem (w : Pt) :
    ∀ (l : List Pt) (e : Pt × Pt), e ∈ edgePairs l w →
      e.1 ∈ l ∧ (e.2 ∈ l ∨ e.2 = w)
  | [], e, he => by cases he
  | [a], e, he => by
    simp only [edgePairs, List.mem_singleton] at he
    subst he
    simp
  | a :: b :: l, e, he => by
    simp only [edgePairs, List.mem_cons] at he
    rcases he with he | he
    · subst he
      simp
    · obtain ⟨h1, h2⟩ := edgePairs_mem w (b :: l) e he
      refine ⟨List.mem_cons_of_mem _ h1, ?_⟩
      rcases h2 with h2 | h2
      · exact Or.inl (List.mem_cons_of_mem _ h2)
      · exact Or.inr h2

/-- Around the closed ring, a boolean labelling of the vertices changes
an even number of times: the straddle count is even. -/
theorem countP_flips (f : Pt → Bool) (w : Pt) :
    ∀ (l : List Pt) (a : Pt),
      (edgePairs (a :: l) w).countP (fun e => f e.1 != f e.2) % 2 =
        (if (f a != f w) = true then 1 else 0) % 2
  | [], a => by
    simp [edgePairs, List.countP_cons, List.countP_nil]
  | b :: l, a => by
    have ih := countP_flips f w l b
    simp only [edgePairs, List.countP_cons, List.countP_nil] at *
    cases hfa : f a <;> cases hfb : f b <;> cases hfw : f w <;>
      simp_all <;> omega

theorem div_unit_interval (num d : ℚ) (hpos : 0 < d) (h0 : 0 ≤ num)
    (h1 : num ≤ d) : 0 ≤ num / d ∧ num / d ≤ 1 :=
  ⟨div_nonneg h0 hpos.le, (div_le_one hpos).mpr h1⟩

/-- When an edge straddles the horizontal line through `p`, the
intersection abscissa lies between the abscissas of the endpoints. -/
theorem xInt_bounds (p : Pt) (e : Pt × Pt)
    (h : (decide (p.y < e.1.y) != decide (p.y < e.2.y)) = true) :
    min e.1.x e.2.x ≤ xInt p e ∧ xInt p e ≤ max e.1.x e.2.x := by
  set a := e.1 with ha
  set b := e.2 with hb
  have ht : 0 ≤ (p.y - a.y) / (b.y - a.y) ∧ (p.y - a.y) / (b.y - a.y) ≤ 1 := by
    cases h1 : decide (p.y < a.y) <;> cases h2 : decide (p.y < b.y) <;>
        rw [h1, h2] at h <;> simp at h <;>
        simp only [decide_eq_true_eq, decide_eq_false_iff_not, not_lt]
          at h1 h2
    · -- a.y ≤ p.y < b.y
      exact div_unit_interval _ _ (by linarith) (by linarith) (by linarith)
    · -- b.y ≤ p.y < a.y
      have hneg : (p.y - a.y) / (b.y - a.y) = (a.y - p.y) / (a.y - b.y) := by
        rw [div_eq_div_iff (by intro hc; linarith [sub_eq_zero.mp hc] : b.y - a.y ≠ 0)
          (by intro hc; linarith [sub_eq_zero.mp hc] : a.y - b.y ≠ 0)]
        ring
      rw [hneg]
      exact div_unit_interval _ _ (by linarith) (by linarith) (by linarith)
  set t := (p.y - a.y) / (b.y - a.y) with hts
  have hx : xInt p e = a.x + t * (b.x - a.x) := by
    simp only [xInt, hts, ← ha, ← hb]
    ring
  obtain ⟨ht0, ht1⟩ := ht
  rcases le_total a.x b.x with hab | hab
  · rw [min_eq_left hab, max_eq_right hab, hx]
    constructor
    · nlinarith [mul_nonneg ht0 (sub_nonneg.mpr hab)]
    · nlinarith [mul_nonneg (sub_nonneg.mpr ht1) (sub_nonneg.mpr hab)]
  · rw [min_eq_right hab, max_eq_left hab, hx]
    constructor
    · nlinarith [mul_nonneg (sub_nonneg.mpr ht1) (sub_nonneg.mpr hab)]
    · nlinarith [mul_nonneg ht0 (sub_nonneg.mpr hab)]

theorem crossNum_even_of_left (P : Polygon) (p : Pt)
    (h : p.x < P.minx) : crossNum P p % 2 = 0 := by
  have hcong : P.edges.countP (crossesRay p) =
      P.edges.countP (fun e => decide (p.y < e.1.y) != decide (p.y < e.2.y)) := by
    apply List.countP_congr
    intro e he
    obtain ⟨h1m, h2m⟩ := edgePairs_mem P.v0 P.verts e he
    have hx1 : P.minx ≤ e.1.x := minx_le_vert P _ h1m
    have hx2 : P.minx ≤ e.2.x := by
      rcases h2m with h2m | h2m
      · exact minx_le_vert P _ h2m
      · rw [h2m]; exact minx_le_vert P _ (by simp [Polygon.verts])
    by_cases hs : (decide (p.y < e.1.y) != decide (p.y < e.2.y)) = true
    · have hseg := xInt_bounds p e hs
      have hlt : p.x < xInt p e :=
        lt_of_lt_of_le h (le_trans (le_min hx1 hx2) hseg.1)
      simp [crossesRay, straddles, hs, hlt]
    · simp only [Bool.not_eq_true] at hs
      simp [crossesRay, straddles, hs]
  have hpar := countP_flips (fun v => decide (p.y < v.y)) P.v0 P.rest P.v0
  have hgoal : P.edges.countP
      (fun e => decide (p.y < e.1.y) != decide (p.y < e.2.y)) % 2 = 0 := by
    simp only [Polygon.edges, Polygon.verts]
    simpa using hpar
  simpa [crossNum, hcong] using hgoal

theorem crossNum_zero_of_right (P : Polygon) (p : Pt) (h : P.maxx < p.x) :
    crossNum P p = 0 := by
  rw [crossNum, List.countP_eq_zero]
  intro e he
  obtain ⟨h1m, h2m⟩ := edgePairs_mem P.v0 P.verts e he
  have hx1 : e.1.x ≤ P.maxx := vert_le_maxx P _ h1m
  have hx2 : e.2.x ≤ P.maxx := by
    rcases h2m with h2m | h2m
    · exact vert_le_maxx P _ h2m
    · rw [h2m]; exact vert_le_maxx P _ (by simp [Polygon.verts])
  by_cases hs : (decide (p.y < e.1.y) != decide (p.y < e.2.y)) = true
  · have hseg := xInt_bounds p e hs
    have hle : xInt p e ≤ P.maxx := le_trans hseg.2 (max_le hx1 hx2)
    simp only [crossesRay, straddles, hs, Bool.true_and, Bool.not_eq_true,
      decide_eq_false_iff_not, not_lt]
    linarith
  · simp only [Bool.not_eq_true] at hs
    simp [crossesRay, straddles, hs]

theorem crossNum_zero_of_above (P : Polygon) (p : Pt) (h : P.maxy < p.y) :
    crossNum P p = 0 := by
  rw [crossNum, List.countP_eq_zero]
  intro e he
  obtain ⟨h1m, h2m⟩ := edgePairs_mem P.v0 P.verts e he
  have hy1 : e.1.y ≤ P.maxy := vert_le_maxy P _ h1m
  have hy2 : e.2.y ≤ P.maxy := by
    rcases h2m with h2m | h2m
    · exact vert_le_maxy P _ h2m
    · rw [h2m]; exact vert_le_maxy P _ (by simp [Polygon.verts])
  have hn1 : ¬(p.y < e.1.y) := by linarith
  have hn2 : ¬(p.y < e.2.y) := by linarith
  simp [crossesRay, straddles, hn1, hn2]

theorem crossNum_zero_of_below (P : Polygon) (p : Pt) (h : p.y < P.miny) :
    crossNum P p = 0 := by
  rw [crossNum, List.countP_eq_zero]
  intro e he
  obtain ⟨h1m, h2m⟩ := edgePairs_mem P.v0 P.verts e he
  have hy1 : P.miny ≤ e.1.y := miny_le_vert P _ h1m
  have hy2 : P.miny ≤ e.2.y := by
    rcases h2m with h2m | h2m
    · exact miny_le_vert P _ h2m
    · rw [h2m]; exact miny_le_vert P _ (by simp [Polygon.verts])
  have hp1 : p.y < e.1.y := by linarith
  have hp2 : p.y < e.2.y := by linarith
  simp [crossesRay, straddles, hp1, hp2]

/-- C2.  The bounding-box selector built from `geom.bounds` never
excludes a point that the exact containment test accepts: bbox
selection is a superset of true containment. -/
theorem bbox_selector_superset (P : Polygon) (p : Pt)
    (h : containsPt P p = true) : inBBox P p.x p.y = true := by
  have hodd : crossNum P p % 2 = 1 := by
    simpa [containsPt] using h
  have h1 : P.minx ≤ p.x := by
    by_contra hc
    push_neg at hc
    have := crossNum_even_of_left P p hc
    omega
  have h2 : p.x ≤ P.maxx := by
    by_contra hc
    push_neg at hc
    have := crossNum_zero_of_right P p hc
    omega
  have h3 : P.miny ≤ p.y := by
    by_contra hc
    push_neg at hc
    have := crossNum_zero_of_below P p hc
    omega
  have h4 : p.y ≤ P.maxy := by
    by_contra hc
    push_neg at hc
    have := crossNum_zero_of_above P p hc
    omega
  simp [inBBox, h1, h2, h3, h4]

/-- Witness for C2: the centre of the unit square is contained and is
selected by the bounding box. -/
theorem bbox_selector_superset_witness :
    containsPt ⟨⟨0, 0⟩, [⟨1, 0⟩, ⟨1, 1⟩, ⟨0, 1⟩]⟩ ⟨1/2, 1/2⟩ = true ∧
      inBBox ⟨⟨0, 0⟩, [⟨1, 0⟩, ⟨1, 1⟩, ⟨0, 1⟩]⟩ (1/2) (1/2) = true := by
  have hc : containsPt ⟨⟨0, 0⟩, [⟨1, 0⟩, ⟨1, 1⟩, ⟨0, 1⟩]⟩ ⟨1/2, 1/2⟩ = true := by
    norm_num [containsPt, crossNum, Polygon.edges, Polygon.verts, edgePairs,
      List.countP_cons, List.countP_nil, crossesRay, straddles, xInt]
  exact ⟨hc, bbox_selector_superset _ ⟨1/2, 1/2⟩ hc⟩

/-! ### Per-time-step reducer (`_extract_lakes_core_from_ds`) -/

/-- `np.nanquantile(vals, q)`, default linear-interpolation method:
`h = q*(n-1)`, interpolate between the floor(h)-th and next order
statistics. -/
def quantile (l : List ℚ) (q : ℚ) : ℚ :=
  let s := l.mergeSort (fun a b => decide (a ≤ b))
  let h : ℚ := ((s.length : ℚ) - 1) * q
  let i : ℕ := h.floor.toNat
  let lo := s.getD i 0
  let hi := s.getD (i + 1) lo
  lo + (h - (i : ℚ)) * (hi - lo)

/-- One output record of `_extract_lakes_core_from_ds` (statistics part). -/
structure LakeRow where
  n_valid : ℕ
  CI_mean : Option ℚ
  CI_p90 : Option ℚ

/-- `arr[finite]` after `sub = da.where(mask)`: the finite values that
survive the selector. -/
def maskedVals (da : List (Option ℚ)) (mask : List Bool) : List ℚ :=
  ((da.zip mask).map (fun vm => if vm.2 then vm.1 else none)).filterMap id

/-- Statistics step of `_extract_lakes_core_from_ds` (lines 119-129) for
one lake: count finite cells; when any remain take `np.nanmean` (the
arithmetic mean) and the 90th percentile, otherwise record NaN/NaN. -/
def reduceLake (da : List (Option ℚ)) (mask : List Bool) : LakeRow :=
  let vals := maskedVals da mask
  let n := vals.length
  { n_valid := n
    CI_mean := if 0 < n then some (vals.sum / (n : ℚ)) else none
    CI_p90 := if 0 < n then some (quantile vals (9/10)) else none }

/-- One row of the daily output table (columns of lines 131-140, with
`time` renamed to `date` as `run_daily` does). -/
structure Row where
  lake_id : String
  date : ℚ
  product : String
  CI_mean : Option ℚ
  CI_p90 : Option ℚ
  n_valid : ℕ
  src : String
  engine : String

/-- An opened NetCDF dataset, reduced to the parts the pipeline reads.
`timeVals` is the raw value array of the `time` coordinate/variable when
one exists; the coverage attributes are raw attribute strings; `ci` is
the flattened `CI_cyano` slice (`none` when the variable is absent);
`latlon` the flattened 2-D coordinate grid as (lat, lon) pairs (`none`
when `lat`/`lon` is absent). -/
structure NCDataset where
  timeVals : Option (List String)
  time_coverage_start : Option String
  start_time : Option String
  time_coverage_end : Option String
  end_time : Option String
  valid_min : Option ℚ
  valid_max : Option ℚ
  ci : Option (List (Option ℚ))
  latlon : Option (List (ℚ × ℚ))

/-- `_extract_lakes_core_from_ds` (lines 73-142): validity-filter the
`CI_cyano` slice, check `lat`/`lon` presence and shape, then emit one row
per lake using the bounding-box selector and the reducer.  Python
exceptions become `Except.error`. -/
def extract_core (ds : NCDataset) (lakes : List (String × Polygon))
    (time_label : ℚ) (product engine src : String) :
    Except String (List Row) :=
  match ds.ci with
  | none => .error "CI_cyano not found in dataset data_vars"
  | some da0 =>
    let da := da0.map (clean_ci ds.valid_min ds.valid_max)
    match ds.latlon with
    | none => .error "lat / lon not found in dataset"
    | some ll =>
      if ll.length ≠ da.length then
        .error "lat/lon shape not matching CI_cyano"
      else
        .ok (lakes.map (fun lp =>
          let mask := ll.map (fun c => inBBox lp.2 c.2 c.1)
          let r := reduceLake da mask
          { lake_id := lp.1, date := time_label, product := product,
            CI_mean := r.CI_mean, CI_p90 := r.CI_p90, n_valid := r.n_valid,
            src := src, engine := engine }))

/-- C3.  The reducer records `n_valid` as the exact number of finite
cells surviving filter and selector; zero finite cells give null mean and
null percentile (no error), at least one finite cell gives the mean and
the 90th percentile of exactly those cells; and the core extractor still
emits one row per lake whenever the dataset is structurally complete. -/
theorem reducer_law :
    (∀ (da : List (Option ℚ)) (mask : List Bool),
      (reduceLake da mask).n_valid = (maskedVals da mask).length ∧
      ((maskedVals da mask).length = 0 →
        (reduceLake da mask).CI_mean = none ∧
        (reduceLake da mask).CI_p90 = none) ∧
      (0 < (maskedVals da mask).length →
        (reduceLake da mask).CI_mean =
          some ((maskedVals da mask).sum / ((maskedVals da mask).length : ℚ)) ∧
        (reduceLake da mask).CI_p90 =
          some (quantile (maskedVals da mask) (9/10)))) ∧
    (∀ (ds : NCDataset) (lakes : List (String × Polygon)) (t : ℚ)
        (prod eng src : String) (da0 : List (Option ℚ)) (ll : List (ℚ × ℚ)),
      ds.ci = some da0 → ds.latlon = some ll → ll.length = da0.length →
      extract_core ds lakes t prod eng src =
        .ok (lakes.map (fun lp =>
          let mask := ll.map (fun c => inBBox lp.2 c.2 c.1)
          let r := reduceLake (da0.map (clean_ci ds.valid_min ds.valid_max)) mask
          { lake_id := lp.1, date := t, product := prod,
            CI_mean := r.CI_mean, CI_p90 := r.CI_p90, n_valid := r.n_valid,
            src := src, engine := eng })) ∧
      (lakes.map (fun lp =>
          let mask := ll.map (fun c => inBBox lp.2 c.2 c.1)
          let r := reduceLake (da0.map (clean_ci ds.valid_min ds.valid_max)) mask
          ({ lake_id := lp.1, date := t, product := prod,
             CI_mean := r.CI_mean, CI_p90 := r.CI_p90, n_valid := r.n_valid,
             src := src, engine := eng } : Row))).length = lakes.length) := by
  constructor
  · intro da mask
    refine ⟨rfl, ?_, ?_⟩
    · intro h
      simp [reduceLake, h]
    · intro h
      simp [reduceLake, Nat.pos_iff_ne_zero.mp h]
  · intro ds lakes t prod eng src da0 ll hci hll hlen
    refine ⟨?_, by simp⟩
    simp [extract_core, hci, hll, hlen]

/-- Witness for C3: a 2-cell dataset with `valid_min = 1` and all cells
zero (scenario B shape) is extracted without error, one row per lake. -/
theorem reducer_law_witness :
    extract_core
      ⟨none, none, none, none, none, some 1, none,
        some [some 0, some 0], some [(0, 0), (0, 1)]⟩
      [("L1", ⟨⟨0, 0⟩, [⟨1, 0⟩, ⟨1, 1⟩, ⟨0, 1⟩]⟩)] 5 "daily" "netcdf4" "f.nc" =
      .ok ([("L1", (⟨⟨0, 0⟩, [⟨1, 0⟩, ⟨1, 1⟩, ⟨0, 1⟩]⟩ : Polygon))].map
        (fun lp =>
          let mask := [((0 : ℚ), (0 : ℚ)), (0, 1)].map
            (fun c => inBBox lp.2 c.2 c.1)
          let r := reduceLake ([some 0, some 0].map (clean_ci (some 1) none))
            mask
          { lake_id := lp.1, date := 5, product := "daily",
            CI_mean := r.CI_mean, CI_p90 := r.CI_p90, n_valid := r.n_valid,
            src := "f.nc", engine := "netcdf4" })) :=
  (reducer_law.2 _ _ 5 "daily" "netcdf4" "f.nc" _ _ rfl rfl rfl).1

/-! ### Timestamp inference (`infer_time_label`, lines 10-54) -/

/-- Python `a or b` on optional attribute strings (an empty string is
falsy). -/
def pyOr (a b : Option String) : Option String :=
  match a with
  | some s => if s = "" then b else some s
  | none => b

/-- Python truthiness of an optional string. -/
def truthy : Option String → Bool
  | some s => !(s == "")
  | none => false

/-- `nc_path.split("/")[-1]`. -/
def basename (path : List Char) : List Char :=
  path.foldl (fun acc c => if c = '/' then [] else acc ++ [c]) []

/-- Does the regex `\.(\d{8})\.L3m\.DAY\.` match at this position?  If so
return the captured digits. -/
def matchDailyAt : List Char → Option (List Char)
  | '.' :: rest =>
    let ds := rest.take 8
    if ds.length = 8 ∧ ds.all Char.isDigit ∧
        (rest.drop 8).take 9 = ".L3m.DAY.".data
    then some ds else none
  | _ => none

/-- `re.search` for the daily filename pattern: first matching position. -/
def searchDaily : List Char → Option (List Char)
  | [] => none
  | c :: rest =>
    match matchDailyAt (c :: rest) with
    | some ds => some ds
    | none => searchDaily rest

/-- Does the regex `\.(\d{8})_(\d{8})\.L3m\.MO\.` match at this
position?  If so return the two captured digit groups. -/
def matchMonthlyAt : List Char → Option (List Char × List Char)
  | '.' :: rest =>
    let b := rest.take 8
    let rest2 := rest.drop 8
    let e := (rest2.drop 1).take 8
    if b.length = 8 ∧ b.all Char.isDigit ∧ rest2.take 1 = ['_'] ∧
        e.length = 8 ∧ e.all Char.isDigit ∧
        ((rest2.drop 1).drop 8).take 8 = ".L3m.MO.".data
    then some (b, e) else none
  | _ => none

/-- `re.search` for the monthly filename pattern. -/
def searchMonthly : List Char → Option (List Char × List Char)
  | [] => none
  | c :: rest =>
    match matchMonthlyAt (c :: rest) with
    | some r => some r
    | none => searchMonthly rest

/-- Method 1 of `infer_time_label` (lines 16-22): when a `time`
coordinate/variable exists, `pd.to_datetime` is applied to its whole
value array (any unparseable element raises, caught by the `except`),
then the first element is taken (an empty array raises too). -/
def parseAll (toDT : String → Option ℚ) : List String → Option (List ℚ)
  | [] => some []
  | s :: rest =>
    match toDT s, parseAll toDT rest with
    | some t, some ts => some (t :: ts)
    | _, _ => none

def timeFromCoord (toDT : String → Option ℚ) (ds : NCDataset) : Option ℚ :=
  match ds.timeVals with
  | none => none
  | some vals =>
    match parseAll toDT vals with
    | none => none
    | some ts => ts.head?

/-- Method 2 of `infer_time_label` (lines 24-36): coverage attributes;
for monthly products the midpoint of start and end, for other products
the start. -/
def attrsStep (toDT : String → Option ℚ) (ds : NCDataset)
    (product : String) : Option ℚ :=
  let start := pyOr ds.time_coverage_start ds.start_time
  let stop := pyOr ds.time_coverage_end ds.end_time
  if truthy start && truthy stop then
    match start, stop with
    | some s, some e =>
      match toDT s, toDT e with
      | some ts, some te =>
        if product = "monthly" then some (ts + (te - ts) / 2) else some ts
      | _, _ => none
    | _, _ => none
  else none

/-- `infer_time_label` (lines 10-54): the three methods in priority
order; if all fail, raise `ValueError`. -/
def infer_time_label (toDT : String → Option ℚ) (pYMD : List Char → ℚ)
    (nc_path : String) (ds : NCDataset) (product : String) :
    Except String ℚ :=
  match timeFromCoord toDT ds with
  | some t => .ok t
  | none =>
    match attrsStep toDT ds product with
    | some t => .ok t
    | none =>
      let fn := basename nc_path.data
      if product = "monthly" then
        match searchMonthly fn with
        | some be =>
          let ts := pYMD be.1
          let te := pYMD be.2
          .ok (ts + (te - ts) / 2)
        | none =>
          .error ("Cannot infer time from dataset or filename: " ++
            String.mk fn)
      else
        match searchDaily fn with
        | some d => .ok (pYMD d)
        | none =>
          .error ("Cannot infer time from dataset or filename: " ++
            String.mk fn)

/-- C4 (counterexample).  A dataset whose `time` array has a parseable
first value but an unparseable second value: method 1 raises inside the
`try`, falls through, and the filename date (99) is returned instead of
the first time value (2) — the claim as stated fails. -/
theorem time_coordinate_first_value_cex :
    (fun s => if s = "2024-01-02" then some (2 : ℚ) else none) "2024-01-02"
        = some 2 ∧
    infer_time_label (fun s => if s = "2024-01-02" then some (2 : ℚ) else none)
        (fun _ => 99) "A.20240102.L3m.DAY.nc"
        ⟨some ["2024-01-02", "junk"], none, none, none, none, none, none,
          none, none⟩ "daily" = .ok 99 ∧
    ((.ok 99 : Except String ℚ) ≠ .ok 2) :=
  ⟨rfl, rfl, by simp⟩

/-- C4 (amended).  When the `time` coordinate is present, its whole
value array parses, and it is nonempty, `infer_time_label` returns the
first value — winning over any coverage attributes and any
filename-embedded dates. -/
theorem time_coordinate_priority (toDT : String → Option ℚ)
    (pYMD : List Char → ℚ) (path : String) (ds : NCDataset)
    (product : String) (vals : List String) (ts : List ℚ) (t : ℚ)
    (h1 : ds.timeVals = some vals) (h2 : parseAll toDT vals = some ts)
    (h3 : ts.head? = some t) :
    infer_time_label toDT pYMD path ds product = .ok t := by
  simp [infer_time_label, timeFromCoord, h1, h2, h3]

/-- Witness for C4 (amended): a dataset with one parseable time value,
conflicting coverage attributes and a conflicting filename date still
yields the time coordinate's first value. -/
theorem time_coordinate_priority_witness :
    infer_time_label (fun s => if s = "t0" then some (1 : ℚ) else none)
      (fun _ => 99) "A.20240102.L3m.DAY.nc"
      ⟨some ["t0"], some "t0", none, some "t0", none, none, none, none,
        none⟩ "daily" = .ok 1 :=
  time_coordinate_priority _ _ _ _ _ ["t0"] [1] 1 rfl rfl rfl

/-- C5.  When method 1 fails: parseable, truthy coverage attributes give
the midpoint for monthly products and the start for daily products;
failing those, the filename pattern gives the midpoint of the two
embedded dates (monthly) or the single embedded date (daily). -/
theorem fallback_timestamp_methods (toDT : String → Option ℚ)
    (pYMD : List Char → ℚ) (path : String) (ds : NCDataset)
    (hco : timeFromCoord toDT ds = none) :
    (∀ s e ts te, pyOr ds.time_coverage_start ds.start_time = some s →
      pyOr ds.time_coverage_end ds.end_time = some e →
      s ≠ "" → e ≠ "" → toDT s = some ts → toDT e = some te →
      infer_time_label toDT pYMD path ds "monthly" =
          .ok (ts + (te - ts) / 2) ∧
      infer_time_label toDT pYMD path ds "daily" = .ok ts) ∧
    (attrsStep toDT ds "monthly" = none →
      ∀ b e, searchMonthly (basename path.data) = some (b, e) →
        infer_time_label toDT pYMD path ds "monthly" =
          .ok (pYMD b + (pYMD e - pYMD b) / 2)) ∧
    (attrsStep toDT ds "daily" = none →
      ∀ d, searchDaily (basename path.data) = some d →
        infer_time_label toDT pYMD path ds "daily" = .ok (pYMD d)) := by
  refine ⟨?_, ?_, ?_⟩
  · intro s e ts te hs he hsne hene hts hte
    have hattr : ∀ product, attrsStep toDT ds product =
        (if product = "monthly" then some (ts + (te - ts) / 2)
          else some ts) := by
      intro product
      simp [attrsStep, hs, he, truthy, hsne, hene, hts, hte]
    constructor
    · simp [infer_time_label, hco, hattr]
    · simp [infer_time_label, hco, hattr]
  · intro hattr b e hsearch
    simp [infer_time_label, hco, hattr, hsearch]
  · intro hattr d hsearch
    simp [infer_time_label, hco, hattr, hsearch]

/-- Witness for C5: a dataset with no time coordinate and parseable
coverage attributes yields the start for the daily product; with no
usable attributes, the filename date is used. -/
theorem fallback_timestamp_methods_witness :
    infer_time_label (fun s => if s = "s0" then some (3 : ℚ) else none)
      (fun _ => 99) "A.20240102.L3m.DAY.nc"
      ⟨none, some "s0", none, some "s0", none, none, none, none, none⟩
      "daily" = .ok 3 ∧
    infer_time_label (fun _ => none) (fun _ => 99) "A.20240102.L3m.DAY.nc"
      ⟨none, none, none, none, none, none, none, none, none⟩
      "daily" = .ok 99 :=
  ⟨((fallback_timestamp_methods
      (fun s => if s = "s0" then some (3 : ℚ) else none) (fun _ => 99)
      "A.20240102.L3m.DAY.nc"
      ⟨none, some "s0", none, some "s0", none, none, none, none, none⟩
      rfl).1 "s0" "s0" 3 3 rfl rfl (by decide) (by decide) rfl rfl).2,
    (fallback_timestamp_methods (fun _ => none) (fun _ => 99)
      "A.20240102.L3m.DAY.nc"
      ⟨none, none, none, none, none, none, none, none, none⟩
      rfl).2.2 rfl
      ((['2', '0', '2', '4', '0', '1', '0', '2'] : List Char)) rfl⟩

/-! ### File-signature check and the per-file loop of `run_daily` -/

/-- `looks_like_hdf5` (lines 233-239).  A file is modelled by its byte
content, `none` when opening or reading raises; the `except` clause
turns any such failure into `False`.  The magic numbers are
`b"\x89HDF"` (HDF5) and `b"CDF"` (classic NetCDF). -/
def looks_like_hdf5 (content : Option (List ℕ)) : Bool :=
  match content with
  | none => false
  | some bytes =>
    let sig := bytes.take 8
    [0x89, 0x48, 0x44, 0x46].isPrefixOf sig ||
      [0x43, 0x44, 0x46].isPrefixOf sig

/-- C9.  `looks_like_hdf5` is total: an unreadable file yields `False`,
and a readable file yields exactly the two-magic-number prefix test on
its first 8 bytes — it never raises. -/
theorem looks_like_hdf5_total :
    looks_like_hdf5 none = false ∧
    ∀ bytes : List ℕ, looks_like_hdf5 (some bytes) =
      ([0x89, 0x48, 0x44, 0x46].isPrefixOf (bytes.take 8) ||
        [0x43, 0x44, 0x46].isPrefixOf (bytes.take 8)) :=
  ⟨rfl, fun _ => rfl⟩

/-- One file of the daily directory: its name, its byte content (`none`
when unreadable) and the dataset each engine would deliver (`none` when
`xr.open_dataset` raises for that engine). -/
structure FileEntry where
  name : String
  content : Option (List ℕ)
  dsNetcdf4 : Option NCDataset
  dsH5 : Option NCDataset

/-- `extract_lakes_from_nc` / `_extract_one_with_h5netcdf`
(lines 144-166, 241-263): open with the engine, infer the time label,
run the core extraction.  Any raised exception surfaces as `.error`. -/
def tryEngine (toDT : String → Option ℚ) (pYMD : List Char → ℚ)
    (lakes : List (String × Polygon)) (fname product engine : String) :
    Option NCDataset → Except String (List Row)
  | none => .error "open failed"
  | some ds =>
    match infer_time_label toDT pYMD fname ds product with
    | .error e => .error e
    | .ok t => extract_core ds lakes t product engine fname

/-- The body of the `for fp in files` loop of `run_daily`
(lines 340-373): signature check first (skip with no decode attempt on
failure), then the netcdf4 attempt, then the h5netcdf fallback.  Returns
the list of decode attempts `(engine, succeeded)` in order, and the
file's rows when one attempt succeeded. -/
def processFile (toDT : String → Option ℚ) (pYMD : List Char → ℚ)
    (lakes : List (String × Polygon)) (f : FileEntry) :
    List (String × Bool) × Option (List Row) :=
  if looks_like_hdf5 f.content = false then ([], none)
  else
    match tryEngine toDT pYMD lakes f.name "daily" "netcdf4" f.dsNetcdf4 with
    | .ok df => ([("netcdf4", true)], some df)
    | .error _ =>
      match tryEngine toDT pYMD lakes f.name "daily" "h5netcdf" f.dsH5 with
      | .ok df => ([("netcdf4", false), ("h5netcdf", true)], some df)
      | .error _ => ([("netcdf4", false), ("h5netcdf", false)], none)

/-- `out_rows` accumulation over the files, concatenated in order
(`pd.concat(out_rows)`); skipped files contribute nothing. -/
def collectRows (toDT : String → Option ℚ) (pYMD : List Char → ℚ)
    (lakes : List (String × Polygon)) : List FileEntry → List Row
  | [] => []
  | f :: rest =>
    (match (processFile toDT pYMD lakes f).2 with
     | some df => df
     | none => []) ++ collectRows toDT pYMD lakes rest

/-- Sort key of `sort_values(["lake_id", "date"])`. -/
def keyLE (k1 k2 : String × ℚ) : Bool :=
  decide (k1.1 < k2.1) || (decide (k1.1 = k2.1) && decide (k1.2 ≤ k2.2))

def rowKey (r : Row) : String × ℚ := (r.lake_id, r.date)

def sortRows (rows : List Row) : List Row :=
  rows.mergeSort (fun a b => keyLE (rowKey a) (rowKey b))

/-- The run-level inputs of `run_daily`: the CRS of the lake layer
(`none` models a missing CRS), the lake table, and the files found by
the glob. -/
structure RunInput where
  crs : Option String
  lakes : List (String × Polygon)
  files : List FileEntry

/-- `run_daily` (lines 320-391): the missing-CRS precondition check
happens before any file is touched; then each file is processed in turn
and the surviving rows are concatenated and sorted by
`(lake_id, date)`. -/
def run_daily (toDT : String → Option ℚ) (pYMD : List Char → ℚ)
    (inp : RunInput) : Except String (List Row) :=
  match inp.crs with
  | none =>
    .error "The lake file is missing CRS, please ensure it is EPSG:4326"
  | some _ =>
    .ok (sortRows (collectRows toDT pYMD inp.lakes inp.files))

theorem collectRows_append (toDT : String → Option ℚ)
    (pYMD : List Char → ℚ) (lakes : List (String × Polygon))
    (l1 l2 : List FileEntry) :
    collectRows toDT pYMD lakes (l1 ++ l2) =
      collectRows toDT pYMD lakes l1 ++ collectRows toDT pYMD lakes l2 := by
  induction l1 with
  | nil => simp [collectRows]
  | cons f rest ih => simp [collectRows, ih]

theorem extract_core_engine (ds : NCDataset)
    (lakes : List (String × Polygon)) (t : ℚ) (prod eng src : String)
    (rows : List Row)
    (h : extract_core ds lakes t prod eng src = .ok rows) :
    ∀ r ∈ rows, r.engine = eng := by
  intro r hr
  rcases hci : ds.ci with _ | da0 <;>
    rcases hll : ds.latlon with _ | ll <;>
    simp only [extract_core, hci, hll] at h <;>
    try cases h
  split_ifs at h with hlen
  cases h
  obtain ⟨lp, hlp, rfl⟩ := List.mem_map.mp hr
  rfl

theorem tryEngine_engine (toDT : String → Option ℚ) (pYMD : List Char → ℚ)
    (lakes : List (String × Polygon)) (fname prod eng : String)
    (o : Option NCDataset) (df : List Row)
    (h : tryEngine toDT pYMD lakes fname prod eng o = .ok df) :
    ∀ r ∈ df, r.engine = eng := by
  rcases o with _ | ds
  · cases h
  · simp only [tryEngine] at h
    rcases hinf : infer_time_label toDT pYMD fname ds prod with e | t <;>
      simp only [hinf] at h
    · cases h
    · exact extract_core_engine _ _ _ _ _ _ _ h

/-- C6.  A file whose leading bytes fail the magic-number check gets
zero decode-engine attempts and is skipped while the remaining files
still contribute their rows; a file that is successfully extracted has
exactly one successful decode attempt, and that engine's identifier is
recorded in every one of its output rows. -/
theorem signature_gate_and_engine_recording
    (toDT : String → Option ℚ) (pYMD : List Char → ℚ)
    (lakes : List (String × Polygon)) :
    (∀ f : FileEntry, looks_like_hdf5 f.content = false →
      processFile toDT pYMD lakes f = ([], none) ∧
      ∀ pre post, collectRows toDT pYMD lakes (pre ++ f :: post) =
        collectRows toDT pYMD lakes pre ++
          collectRows toDT pYMD lakes post) ∧
    (∀ (f : FileEntry) (trace : List (String × Bool)) (df : List Row),
      processFile toDT pYMD lakes f = (trace, some df) →
      trace.countP (fun ab => ab.2) = 1 ∧
      ∃ eng, trace.getLast? = some (eng, true) ∧
        ∀ r ∈ df, r.engine = eng) := by
  constructor
  · intro f hsig
    have hp : processFile toDT pYMD lakes f = ([], none) := by
      simp [processFile, hsig]
    refine ⟨hp, ?_⟩
    intro pre post
    rw [collectRows_append]
    simp [collectRows, hp]
  · intro f trace df h
    by_cases hsig : looks_like_hdf5 f.content = false
    · simp [processFile, hsig] at h
    · rcases htry1 : tryEngine toDT pYMD lakes f.name "daily" "netcdf4"
          f.dsNetcdf4 with e1 | df1 <;>
        simp only [processFile, if_neg hsig, htry1] at h
      · rcases htry2 : tryEngine toDT pYMD lakes f.name "daily" "h5netcdf"
            f.dsH5 with e2 | df2 <;> simp only [htry2] at h
        · simp at h
        · injection h with ht hd
          subst ht
          injection hd with hd
          subst hd
          exact ⟨by decide, "h5netcdf", rfl,
            tryEngine_engine _ _ _ _ _ _ _ _ htry2⟩
      · injection h with ht hd
        subst ht
        injection hd with hd
        subst hd
        exact ⟨by decide, "netcdf4", rfl,
          tryEngine_engine _ _ _ _ _ _ _ _ htry1⟩

/-- Witness for C6: a file with unreadable content is skipped with no
decode attempt; a well-formed file (valid header, parsing time
coordinate, empty grid) is extracted by netcdf4 and every row records
that engine. -/
theorem signature_gate_witness :
    (processFile (fun s => if s = "t0" then some (1 : ℚ) else none)
        (fun _ => 0) []
        ⟨"garbage.nc", none, none, none⟩ = ([], none)) ∧
    ((([("netcdf4", true)] : List (String × Bool)).countP
        (fun ab => ab.2) = 1) ∧
      ∃ eng, ([("netcdf4", true)] : List (String × Bool)).getLast? =
          some (eng, true) ∧
        ∀ r ∈ ([] : List Row), r.engine = eng) :=
  ⟨((signature_gate_and_engine_recording
      (fun s => if s = "t0" then some (1 : ℚ) else none) (fun _ => 0) []).1
      ⟨"garbage.nc", none, none, none⟩ rfl).1,
    ((signature_gate_and_engine_recording
        (fun s => if s = "t0" then some (1 : ℚ) else none)
        (fun _ => 0) []).2
      ⟨"good.nc", some [0x89, 0x48, 0x44, 0x46],
        some ⟨some ["t0"], none, none, none, none, none, none, some [],
          some []⟩, none⟩
      [("netcdf4", true)] [] rfl)⟩

/-- C7.  A missing CRS on the lake layer stops the run before any file
is processed; an `infer_time_label` failure (after both engines opened
the file) is fatal only to that file: it is skipped and the batch —
including a run over the remaining files — proceeds identically. -/
theorem infer_failure_and_crs_policy (toDT : String → Option ℚ)
    (pYMD : List Char → ℚ) :
    (∀ (lakes : List (String × Polygon)) (files : List FileEntry),
      run_daily toDT pYMD ⟨none, lakes, files⟩ =
        .error "The lake file is missing CRS, please ensure it is EPSG:4326") ∧
    (∀ (lakes : List (String × Polygon)) (f : FileEntry)
        (d1 d2 : NCDataset) (e1 e2 : String),
      f.dsNetcdf4 = some d1 →
      infer_time_label toDT pYMD f.name d1 "daily" = .error e1 →
      f.dsH5 = some d2 →
      infer_time_label toDT pYMD f.name d2 "daily" = .error e2 →
      (processFile toDT pYMD lakes f).2 = none ∧
      (∀ pre post, collectRows toDT pYMD lakes (pre ++ f :: post) =
        collectRows toDT pYMD lakes pre ++
          collectRows toDT pYMD lakes post) ∧
      (∀ crs pre post,
        run_daily toDT pYMD ⟨some crs, lakes, pre ++ f :: post⟩ =
          run_daily toDT pYMD ⟨some crs, lakes, pre ++ post⟩)) := by
  constructor
  · intro lakes files
    rfl
  · intro lakes f d1 d2 e1 e2 hd1 hinf1 hd2 hinf2
    have hskip : (processFile toDT pYMD lakes f).2 = none := by
      by_cases hsig : looks_like_hdf5 f.content = false
      · simp [processFile, hsig]
      · simp [processFile, hsig, tryEngine, hd1, hinf1, hd2, hinf2]
    have hcont : ∀ pre post,
        collectRows toDT pYMD lakes (pre ++ f :: post) =
          collectRows toDT pYMD lakes pre ++
            collectRows toDT pYMD lakes post := by
      intro pre post
      rw [collectRows_append]
      simp [collectRows, hskip]
    refine ⟨hskip, hcont, ?_⟩
    intro crs pre post
    simp [run_daily, hcont, collectRows_append]

/-- Witness for C7: with an unparseable dataset and a filename carrying
no embedded date, timestamp inference fails on both engines; the file
contributes nothing and the run over it equals the run without it. -/
theorem infer_failure_witness :
    (processFile (fun _ => none) (fun _ => (0 : ℚ)) []
        ⟨"bad.nc", some [0x89, 0x48, 0x44, 0x46],
          some ⟨none, none, none, none, none, none, none, none, none⟩,
          some ⟨none, none, none, none, none, none, none, none, none⟩⟩).2 =
      none ∧
    run_daily (fun _ => none) (fun _ => (0 : ℚ))
        ⟨some "EPSG:4326", [],
          [⟨"bad.nc", some [0x89, 0x48, 0x44, 0x46],
            some ⟨none, none, none, none, none, none, none, none, none⟩,
            some ⟨none, none, none, none, none, none, none, none, none⟩⟩]⟩ =
      run_daily (fun _ => none) (fun _ => (0 : ℚ))
        ⟨some "EPSG:4326", [], []⟩ := by
  have h := (infer_failure_and_crs_policy (fun _ => none)
      (fun _ => (0 : ℚ))).2 []
    ⟨"bad.nc", some [0x89, 0x48, 0x44, 0x46],
      some ⟨none, none, none, none, none, none, none, none, none⟩,
      some ⟨none, none, none, none, none, none, none, none, none⟩⟩
    ⟨none, none, none, none, none, none, none, none, none⟩
    ⟨none, none, none, none, none, none, none, none, none⟩
    "Cannot infer time from dataset or filename: bad.nc"
    "Cannot infer time from dataset or filename: bad.nc"
    rfl rfl rfl rfl
  exact ⟨h.1, h.2.2 "EPSG:4326" [] []⟩


/-! ### Long-table assembler and column handling -/

/-- A pandas cell: strings, numbers, counts, or a null marker
(`None` / `NaN` both count as null). -/
inductive Cell
  | str (s : String)
  | num (q : ℚ)
  | cnt (n : ℕ)
  | null
deriving DecidableEq

/-- Association-list lookup by key (column name / join key). -/
def lookupKey {κ α : Type} [DecidableEq κ] : List (κ × α) → κ → Option α
  | [], _ => none
  | kv :: rest, k => if kv.1 = k then some kv.2 else lookupKey rest k

/-- `keep_cols` of `run_daily` (line 382). -/
def keep_cols : List String :=
  ["lake_id", "date", "product", "CI_mean", "CI_p90", "n_valid", "src",
    "engine"]

/-- The fill loop of `run_daily` (lines 383-386): any expected column
that is absent is added, filled with null markers. -/
def fill_missing (nrows : ℕ) (df : List (String × List Cell)) :
    List (String × List Cell) :=
  keep_cols.foldl
    (fun d c => if (lookupKey d c).isSome then d
      else d ++ [(c, List.replicate nrows Cell.null)]) df

/-- `df_all[keep_cols]` (line 387): select the expected columns in their
fixed order. -/
def select_cols (df : List (String × List Cell)) :
    List (String × List Cell) :=
  keep_cols.filterMap (fun c => (lookupKey df c).map (fun col => (c, col)))

/-- Fill then select: the column-alignment step of the index pipeline. -/
def finalize_cols (nrows : ℕ) (df : List (String × List Cell)) :
    List (String × List Cell) :=
  select_cols (fill_missing nrows df)

theorem lookupKey_append {κ α : Type} [DecidableEq κ]
    (l1 l2 : List (κ × α)) (k : κ) :
    lookupKey (l1 ++ l2) k =
      match lookupKey l1 k with
      | some v => some v
      | none => lookupKey l2 k := by
  induction l1 with
  | nil => simp [lookupKey]
  | cons kv rest ih =>
    by_cases h : kv.1 = k <;> simp [lookupKey, h, ih]

theorem lookupKey_eq_none_of_not_mem {κ α : Type} [DecidableEq κ]
    (l : List (κ × α)) (k : κ) (h : k ∉ l.map Prod.fst) :
    lookupKey l k = none := by
  induction l with
  | nil => rfl
  | cons kv rest ih =>
    simp only [List.map_cons, List.mem_cons, not_or] at h
    have hne : ¬ kv.1 = k := fun he => h.1 he.symm
    simp [lookupKey, hne, ih h.2]

theorem mem_keys_of_lookupKey {κ α : Type} [DecidableEq κ]
    (l : List (κ × α)) (k : κ) (v : α) (h : lookupKey l k = some v) :
    k ∈ l.map Prod.fst := by
  induction l with
  | nil => cases h
  | cons kv rest ih =>
    by_cases he : kv.1 = k
    · simp [he]
    · simp only [lookupKey, if_neg he] at h
      simp [ih h]

theorem fill_foldl_preserves (n : ℕ) :
    ∀ (cols : List String) (d : List (String × List Cell)) (c : String)
      (v : List Cell), lookupKey d c = some v →
      lookupKey (cols.foldl
        (fun d c => if (lookupKey d c).isSome then d
          else d ++ [(c, List.replicate n Cell.null)]) d) c = some v := by
  intro cols
  induction cols with
  | nil => intro d c v h; exact h
  | cons c0 rest ih =>
    intro d c v h
    simp only [List.foldl_cons]
    apply ih
    by_cases h0 : (lookupKey d c0).isSome
    · rw [if_pos h0]; exact h
    · rw [if_neg h0, lookupKey_append, h]

theorem fill_foldl_absent (n : ℕ) :
    ∀ (cols : List String) (d : List (String × List Cell)) (c : String),
      c ∈ cols → lookupKey d c = none →
      lookupKey (cols.foldl
        (fun d c => if (lookupKey d c).isSome then d
          else d ++ [(c, List.replicate n Cell.null)]) d) c =
        some (List.replicate n Cell.null) := by
  intro cols
  induction cols with
  | nil => intro d c hc; cases hc
  | cons c0 rest ih =>
    intro d c hc hnone
    simp only [List.foldl_cons]
    by_cases he : c = c0
    · subst he
      have h0 : ¬ (lookupKey d c).isSome = true := by rw [hnone]; simp
      rw [if_neg h0]
      apply fill_foldl_preserves
      rw [lookupKey_append, hnone]
      simp [lookupKey]
    · have hc' : c ∈ rest := by
        rcases List.mem_cons.mp hc with h | h
        · exact absurd h he
        · exact h
      apply ih _ _ hc'
      have hne : ¬ c0 = c := fun hx => he hx.symm
      by_cases h0 : (lookupKey d c0).isSome
      · rw [if_pos h0]; exact hnone
      · rw [if_neg h0, lookupKey_append, hnone]
        simp [lookupKey, hne]

theorem select_map_fst (cols : List String)
    (df : List (String × List Cell))
    (h : ∀ c ∈ cols, (lookupKey df c).isSome) :
    (cols.filterMap
      (fun c => (lookupKey df c).map (fun col => (c, col)))).map Prod.fst =
      cols := by
  induction cols with
  | nil => rfl
  | cons c0 rest ih =>
    obtain ⟨v, hv⟩ := Option.isSome_iff_exists.mp (h c0 (by simp))
    simp [List.filterMap_cons, hv, ih (fun c hc => h c (by simp [hc]))]

/-- The outer join `pd.merge(left, right, on=key, how="outer")` for
tables with unique keys: matched keys merge their variable columns in
left order, left-only keys keep theirs, right-only keys are appended. -/
def mergeOuter (L R : List ((String × String × ℚ) × List (String × ℚ))) :
    List ((String × String × ℚ) × List (String × ℚ)) :=
  L.map (fun kv => (kv.1, kv.2 ++ ((lookupKey R kv.1).getD []))) ++
    R.filter (fun kv => (lookupKey L kv.1).isNone)

/-- The join keys of a table. -/
def keysOf (T : List ((String × String × ℚ) × List (String × ℚ))) :
    List (String × String × ℚ) :=
  T.map Prod.fst

/-- `reduce(lambda l, r: merge(l, r), dfs)` (lines 150-160). -/
def mergeAll : List (List ((String × String × ℚ) × List (String × ℚ))) →
    List ((String × String × ℚ) × List (String × ℚ))
  | [] => []
  | d :: rest => rest.foldl mergeOuter d

/-- `sort_values(["lake_id", "date"])` on the merged Daymet table. -/
def daymetLE (a b : (String × String × ℚ) × List (String × ℚ)) : Bool :=
  keyLE (a.1.1, a.1.2.2) (b.1.1, b.1.2.2)

/-- The assembled Daymet long table (lines 150-163): successive outer
joins then the final sort. -/
def df_daymet (dfs : List (List ((String × String × ℚ) ×
    List (String × ℚ)))) :
    List ((String × String × ℚ) × List (String × ℚ)) :=
  (mergeAll dfs).mergeSort daymetLE

theorem mergeOuter_keys
    (L R : List ((String × String × ℚ) × List (String × ℚ)))
    (k : String × String × ℚ)
    (h : k ∈ keysOf L ∨ k ∈ keysOf R) : k ∈ keysOf (mergeOuter L R) := by
  have hleft : k ∈ keysOf L → k ∈ keysOf (mergeOuter L R) := by
    intro hL
    obtain ⟨kv, hkv, rfl⟩ := List.mem_map.mp hL
    exact List.mem_map.mpr ⟨_, List.mem_append_left _
      (List.mem_map.mpr ⟨kv, hkv, rfl⟩), rfl⟩
  rcases h with hL | hR
  · exact hleft hL
  · by_cases hlk : (lookupKey L k).isSome
    · obtain ⟨v, hv⟩ := Option.isSome_iff_exists.mp hlk
      exact hleft (mem_keys_of_lookupKey _ _ _ hv)
    · obtain ⟨kv, hkv, rfl⟩ := List.mem_map.mp hR
      refine List.mem_map.mpr ⟨kv, List.mem_append_right _ ?_, rfl⟩
      refine List.mem_filter.mpr ⟨hkv, ?_⟩
      simp only [Option.isSome] at hlk
      simp only [Option.isNone]
      rcases hl : lookupKey L kv.1 with _ | v
      · rfl
      · rw [hl] at hlk; exact absurd rfl hlk

theorem mergeAll_foldl_keys (k : String × String × ℚ) :
    ∀ (rest : List (List ((String × String × ℚ) × List (String × ℚ))))
      (acc : List ((String × String × ℚ) × List (String × ℚ))),
      (k ∈ keysOf acc ∨ ∃ T ∈ rest, k ∈ keysOf T) →
      k ∈ keysOf (rest.foldl mergeOuter acc) := by
  intro rest
  induction rest with
  | nil =>
    intro acc h
    rcases h with h | ⟨T, hT, _⟩
    · exact h
    · cases hT
  | cons T0 rest' ih =>
    intro acc h
    simp only [List.foldl_cons]
    apply ih
    rcases h with h | ⟨T, hT, hk⟩
    · exact Or.inl (mergeOuter_keys _ _ _ (Or.inl h))
    · rcases List.mem_cons.mp hT with rfl | hT'
      · exact Or.inl (mergeOuter_keys _ _ _ (Or.inr hk))
      · exact Or.inr ⟨T, hT', hk⟩

theorem keyLE_trans (a b c : String × ℚ) (h1 : keyLE a b = true)
    (h2 : keyLE b c = true) : keyLE a c = true := by
  simp only [keyLE, Bool.or_eq_true, Bool.and_eq_true,
    decide_eq_true_eq] at *
  rcases h1 with h1 | ⟨h1e, h1le⟩ <;> rcases h2 with h2 | ⟨h2e, h2le⟩
  · exact Or.inl (lt_trans h1 h2)
  · exact Or.inl (by rw [← h2e]; exact h1)
  · exact Or.inl (by rw [h1e]; exact h2)
  · exact Or.inr ⟨h1e.trans h2e, le_trans h1le h2le⟩

theorem keyLE_total (a b : String × ℚ) :
    (keyLE a b || keyLE b a) = true := by
  simp only [keyLE, Bool.or_eq_true, Bool.and_eq_true, decide_eq_true_eq]
  rcases lt_trichotomy a.1 b.1 with h | h | h
  · exact Or.inl (Or.inl h)
  · rcases le_total a.2 b.2 with hle | hle
    · exact Or.inl (Or.inr ⟨h, hle⟩)
    · exact Or.inr (Or.inr ⟨h.symm, hle⟩)
  · exact Or.inr (Or.inl h)

/-- C8.  The climate pipeline's outer join keeps every (lake, name,
date) key present in any variable's table; both final tables are sorted
by `(lake_id, date)`; and the index pipeline's column step yields
exactly the fixed column order, preserving present columns and filling
absent ones with null markers. -/
theorem long_table_assembler_law :
    (∀ (dfs : List (List ((String × String × ℚ) × List (String × ℚ))))
        (k : String × String × ℚ),
      (∃ T ∈ dfs, k ∈ keysOf T) → k ∈ keysOf (df_daymet dfs)) ∧
    (∀ dfs, (df_daymet dfs).Pairwise (fun a b => daymetLE a b = true)) ∧
    (∀ (toDT : String → Option ℚ) (pYMD : List Char → ℚ) (inp : RunInput)
        (crs : String) (rows : List Row), inp.crs = some crs →
      run_daily toDT pYMD inp = .ok rows →
      rows.Pairwise (fun a b => keyLE (rowKey a) (rowKey b) = true)) ∧
    (∀ (df : List (String × List Cell)) (n : ℕ),
      (finalize_cols n df).map Prod.fst = keep_cols ∧
      (∀ c col, c ∈ keep_cols → lookupKey df c = some col →
        (c, col) ∈ finalize_cols n df) ∧
      (∀ c, c ∈ keep_cols → lookupKey df c = none →
        (c, List.replicate n Cell.null) ∈ finalize_cols n df)) := by
  have hsortedRows : ∀ rows : List Row,
      (sortRows rows).Pairwise (fun a b => keyLE (rowKey a) (rowKey b) = true) := by
    intro rows
    have := @List.sorted_mergeSort Row
      (fun a b : Row => keyLE (rowKey a) (rowKey b))
      (fun a b c hab hbc => keyLE_trans _ _ _ hab hbc)
      (fun a b => keyLE_total _ _) rows
    simpa [sortRows] using this
  refine ⟨?_, ?_, ?_, ?_⟩
  · intro dfs k hk
    obtain ⟨T, hT, hkT⟩ := hk
    have hall : k ∈ keysOf (mergeAll dfs) := by
      rcases dfs with _ | ⟨d0, rest⟩
      · cases hT
      · rcases List.mem_cons.mp hT with rfl | hT'
        · exact mergeAll_foldl_keys _ _ _ (Or.inl hkT)
        · exact mergeAll_foldl_keys _ _ _ (Or.inr ⟨T, hT', hkT⟩)
    simp only [keysOf, List.mem_map] at hall ⊢
    obtain ⟨kv, hkv, rfl⟩ := hall
    exact ⟨kv, by simp [df_daymet, hkv], rfl⟩
  · intro dfs
    have := @List.sorted_mergeSort _ daymetLE
      (fun a b c hab hbc => keyLE_trans _ _ _ hab hbc)
      (fun a b => keyLE_total _ _) (mergeAll dfs)
    simpa [df_daymet] using this
  · intro toDT pYMD inp crs rows hcrs hrun
    simp only [run_daily, hcrs] at hrun
    cases hrun
    exact hsortedRows _
  · intro df n
    have hcover : ∀ c ∈ keep_cols, (lookupKey (fill_missing n df) c).isSome := by
      intro c hc
      rcases hl : lookupKey df c with _ | v
      · simp only [fill_missing]
        rw [fill_foldl_absent n keep_cols df c hc hl]
        rfl
      · simp only [fill_missing]
        rw [fill_foldl_preserves n keep_cols df c v hl]
        rfl
    refine ⟨select_map_fst _ _ hcover, ?_, ?_⟩
    · intro c col hc hl
      refine List.mem_filterMap.mpr ⟨c, hc, ?_⟩
      simp only [fill_missing]
      rw [fill_foldl_preserves n keep_cols df c col hl]
      rfl
    · intro c hc hl
      refine List.mem_filterMap.mpr ⟨c, hc, ?_⟩
      simp only [fill_missing]
      rw [fill_foldl_absent n keep_cols df c hc hl]
      rfl

/-- Witness for C8: a key present in a single-variable table survives
into the assembled Daymet table; a present column is preserved and an
absent one is null-filled by the index pipeline's column step. -/
theorem long_table_assembler_witness :
    (("L1", "Lake1", (1 : ℚ)) ∈
      keysOf (df_daymet [[((("L1", "Lake1", (1 : ℚ))), [("tmin", 2)])]])) ∧
    (("lake_id", [Cell.str "L1"]) ∈
      finalize_cols 1 [("lake_id", [Cell.str "L1"])]) ∧
    (("date", [Cell.null]) ∈ finalize_cols 1 [("lake_id", [Cell.str "L1"])]) :=
  ⟨long_table_assembler_law.1 [[((("L1", "Lake1", (1 : ℚ))), [("tmin", 2)])]]
      ("L1", "Lake1", (1 : ℚ))
      ⟨[((("L1", "Lake1", (1 : ℚ))), [("tmin", 2)])], by simp,
        by simp [keysOf]⟩,
    (long_table_assembler_law.2.2.2 [("lake_id", [Cell.str "L1"])] 1).2.1
      "lake_id" [Cell.str "L1"] (by simp [keep_cols]) rfl,
    (long_table_assembler_law.2.2.2 [("lake_id", [Cell.str "L1"])] 1).2.2
      "date" (by simp [keep_cols]) (by simp [lookupKey])⟩

/-! ### Daymet name-column selection (`name_col`, lines 26-35) -/

def name_candidates : List String := ["lake_name", "Lake_name", "name", "Name"]

/-- The candidate scan of lines 26-30. -/
def find_name_col (cols : List String) : Option String :=
  name_candidates.find? (fun c => cols.contains c)

/-- Lines 26-35: pick the first candidate name column; when none exists,
synthesize `lake_name` as a copy of the `lake_id` column. -/
def with_name_col (lakes : List (String × List Cell)) :
    List (String × List Cell) × String :=
  match find_name_col (lakes.map Prod.fst) with
  | some c => (lakes, c)
  | none =>
    (lakes ++ [("lake_name", (lookupKey lakes "lake_id").getD [])],
      "lake_name")

/-- C10.  When no candidate name column exists, a `lake_name` column is
synthesized equal to the `lake_id` column, so (given non-null lake ids)
every row carries a non-null `lake_name`. -/
theorem name_col_synthesis (lakes : List (String × List Cell))
    (idcol : List Cell)
    (hfind : find_name_col (lakes.map Prod.fst) = none)
    (hid : lookupKey lakes "lake_id" = some idcol) :
    (with_name_col lakes).2 = "lake_name" ∧
    lookupKey (with_name_col lakes).1 "lake_name" = some idcol ∧
    ((∀ cell ∈ idcol, cell ≠ Cell.null) →
      ∀ col, lookupKey (with_name_col lakes).1 "lake_name" = some col →
        ∀ cell ∈ col, cell ≠ Cell.null) := by
  have hnotmem : "lake_name" ∉ lakes.map Prod.fst := by
    intro hmem
    have hall := List.find?_eq_none.mp hfind "lake_name" (by simp [name_candidates])
    apply hall
    simpa using hmem
  have hnone : lookupKey lakes "lake_name" = none :=
    lookupKey_eq_none_of_not_mem _ _ hnotmem
  have hlook : lookupKey (with_name_col lakes).1 "lake_name" = some idcol := by
    simp only [with_name_col, hfind]
    rw [lookupKey_append, hnone]
    simp [lookupKey, hid]
  refine ⟨by simp [with_name_col, hfind], hlook, ?_⟩
  intro hnn col hcol cell hcell
  rw [hlook] at hcol
  injection hcol with hcol
  subst hcol
  exact hnn cell hcell

/-- Witness for C10: a lake table with only a `lake_id` column gets a
synthesized `lake_name` equal to it, with non-null entries. -/
theorem name_col_synthesis_witness :
    (with_name_col [("lake_id", [Cell.str "L1"])]).2 = "lake_name" ∧
    lookupKey (with_name_col [("lake_id", [Cell.str "L1"])]).1 "lake_name" =
      some [Cell.str "L1"] :=
  ⟨(name_col_synthesis [("lake_id", [Cell.str "L1"])] [Cell.str "L1"]
      rfl rfl).1,
    (name_col_synthesis [("lake_id", [Cell.str "L1"])] [Cell.str "L1"]
      rfl rfl).2.1⟩

end HAB
